import Mathlib

/-!
Verification of the content_replace HTTP proxy (Go).

Strings from the Go source are modelled as `List Char` (the bodies and
patterns handled by the repository are treated byte-for-byte; all inputs of
interest are ASCII). Each definition below is a shallow embedding of the
correspondingly named Go function. Regular-expression compilation
(`regexp.Compile` / `regexp.MustCompile` / `regexp.MatchString`) is
abstracted as a parameter `rc : RegexCompile`: a fixed function from a
pattern to an optional compiled matcher, mirroring that Go compilation of a
given pattern string is deterministic. Panics are modelled as `none` in
`Option` results. File input and YAML decoding (out-of-scope collaborators
per the specification) are abstracted as an oracle `fs` from a path to the
optional rule list that `loadSingleRulesFile` would produce for it.
-/

namespace ContentReplace

/-- Byte strings, as in the Go source. -/
abbrev Str := List Char

/-- Models Go `strings.HasPrefix s p`. -/
def strStartsWith : Str → Str → Bool
  | _, [] => true
  | [], _ :: _ => false
  | c :: s, p :: ps => c = p && strStartsWith s ps

/-- Models Go `strings.HasSuffix s p`. -/
def strEndsWith (s p : Str) : Bool :=
  strStartsWith s.reverse p.reverse

/-- Models Go `strings.Contains s sub`. -/
def strContains : Str → Str → Bool
  | s, sub =>
    if strStartsWith s sub then true
    else match s with
      | [] => false
      | _ :: rest => strContains rest sub

/-- Fuel-driven core of `strings.ReplaceAll` for a non-empty pattern:
left-to-right, non-overlapping occurrences. -/
def strReplaceAllAux (old new : Str) : Nat → Str → Str
  | 0, s => s
  | _ + 1, [] => []
  | fuel + 1, c :: rest =>
    if strStartsWith (c :: rest) old then
      new ++ strReplaceAllAux old new fuel ((c :: rest).drop old.length)
    else
      c :: strReplaceAllAux old new fuel rest

/-- Models Go `strings.ReplaceAll s old new`. An empty `old` matches before
every character and at the end, as in Go. -/
def strReplaceAll (s old new : Str) : Str :=
  if old.isEmpty then
    new ++ s.foldr (fun c acc => c :: (new ++ acc)) []
  else
    strReplaceAllAux old new s.length s

/-- ASCII lowering of one character; Go `strings.ToLower` restricted to
the ASCII range used by HTTP header names. -/
def asciiLower (c : Char) : Char :=
  if 65 ≤ c.toNat ∧ c.toNat ≤ 90 then Char.ofNat (c.toNat + 32) else c

/-- Models Go `strings.ToLower` on ASCII strings. -/
def strToLower (s : Str) : Str := s.map asciiLower

/-- A compiled Go regular expression, abstracted by its observable
behaviour: `reMatches` for an unanchored search and `reReplaceAll` for
`ReplaceAllString` (input, replacement). -/
structure GoRegexp where
  reMatches : Str → Bool
  reReplaceAll : Str → Str → Str

/-- The deterministic outcome of `regexp.Compile` on a pattern. -/
abbrev RegexCompile := Str → Option GoRegexp

/-- A compile oracle under which no pattern compiles; sufficient for all
non-regex rules, whose behaviour does not consult it. -/
def noRegex : RegexCompile := fun _ => none

/-- The `RuleMode` enumeration of the Go source (`prefix`, `suffix`,
`contains`, `regex`). -/
inductive RuleMode where
  | prefixMode
  | suffixMode
  | containsMode
  | regexMode
deriving DecidableEq

/-- The `RuleAction` enumeration of the Go source (`replace`, `delete`,
`delete_json_field`). -/
inductive RuleAction where
  | replace
  | delete
  | deleteJsonField
deriving DecidableEq

/-- The `Rule` structure of the Go source. -/
structure Rule where
  name : Str
  enabled : Bool
  mode : RuleMode
  pattern : Str
  action : RuleAction
  value : Str

/-- Models `Rule.matchString`: mode-directed test of one string. For the
regex mode, `regexp.MatchString` discards its error, so an uncompilable
pattern yields `false`. -/
def Rule.matchString (rc : RegexCompile) (r : Rule) (s : Str) : Bool :=
  match r.mode with
  | .containsMode => strContains s r.pattern
  | .prefixMode => strStartsWith s r.pattern
  | .suffixMode => strEndsWith s r.pattern
  | .regexMode =>
    match rc r.pattern with
    | some re => re.reMatches s
    | none => false

/-- Models `Rule.Match`: `false` for a disabled rule, otherwise
`matchString` on the content. -/
def Rule.Match (rc : RegexCompile) (r : Rule) (content : Str) : Bool :=
  if !r.enabled then false else r.matchString rc content

/-- Models `Rule.deleteContent`. The regex branch calls
`regexp.MustCompile`, which panics when the pattern does not compile;
the panic is the `none` result. -/
def Rule.deleteContent (rc : RegexCompile) (r : Rule) (content : Str) :
    Option Str :=
  match r.mode with
  | .prefixMode =>
    some (if strStartsWith content r.pattern then
      content.drop r.pattern.length else content)
  | .suffixMode =>
    some (if strEndsWith content r.pattern then
      content.take (content.length - r.pattern.length) else content)
  | .containsMode => some (strReplaceAll content r.pattern [])
  | .regexMode =>
    match rc r.pattern with
    | none => none
    | some re => some (re.reReplaceAll content [])

/-- Models `Rule.replaceContent`; same shape as `deleteContent` with the
rule's `value` substituted. -/
def Rule.replaceContent (rc : RegexCompile) (r : Rule) (content : Str) :
    Option Str :=
  match r.mode with
  | .prefixMode =>
    some (if strStartsWith content r.pattern then
      r.value ++ content.drop r.pattern.length else content)
  | .suffixMode =>
    some (if strEndsWith content r.pattern then
      content.take (content.length - r.pattern.length) ++ r.value
      else content)
  | .containsMode => some (strReplaceAll content r.pattern r.value)
  | .regexMode =>
    match rc r.pattern with
    | none => none
    | some re => some (re.reReplaceAll content r.value)

/-- The opening-brace byte. Written via its code point throughout. -/
def lbrace : Char := Char.ofNat 123

/-- The closing-brace byte. -/
def rbrace : Char := Char.ofNat 125

/-- The dynamic JSON tree produced by `json.Unmarshal` into `interface{}`:
objects are key/value collections (Go maps; modelled as lists with unique
keys, orderless up to the sorted re-serialisation), arrays are sequences,
numbers are the integer values exercised by this repository. -/
inductive Json where
  | null
  | bool (b : Bool)
  | num (n : Int)
  | str (s : Str)
  | obj (members : List (Str × Json))
  | arr (elems : List Json)

/-- JSON whitespace, as accepted by `encoding/json`. -/
def isWsChar (c : Char) : Bool :=
  c = ' ' || c = '\t' || c = '\n' || c = '\r'

/-- Drops leading JSON whitespace. -/
def skipWs : Str → Str
  | [] => []
  | c :: rest => if isWsChar c then skipWs rest else c :: rest

/-- Decodes one backslash escape inside a JSON string literal. The
`\uXXXX` form is outside this model (none of the verified inputs use it);
an unsupported escape makes the parse fail, which the caller treats as
malformed input. -/
def escChar (e : Char) : Option Char :=
  if e = '\"' then some '\"'
  else if e = '\\' then some '\\'
  else if e = '/' then some '/'
  else if e = 'n' then some '\n'
  else if e = 't' then some '\t'
  else if e = 'r' then some '\r'
  else if e = 'b' then some (Char.ofNat 8)
  else if e = 'f' then some (Char.ofNat 12)
  else none

/-- Scans a JSON string body after the opening quote; returns the decoded
characters and the remainder after the closing quote. Raw control
characters are rejected, as in `encoding/json`. -/
def parseStrBody : Str → Option (Str × Str)
  | [] => none
  | c :: rest =>
    if c = '\"' then some ([], rest)
    else if c = '\\' then
      match rest with
      | [] => none
      | e :: rest2 =>
        match escChar e with
        | none => none
        | some ch =>
          match parseStrBody rest2 with
          | some (s, r) => some (ch :: s, r)
          | none => none
    else if c.toNat < 32 then none
    else
      match parseStrBody rest with
      | some (s, r) => some (c :: s, r)
      | none => none

/-- Literal matcher for `null` / `true` / `false` keywords. -/
def dropLit (lit s : Str) : Option Str :=
  if strStartsWith s lit then some (s.drop lit.length) else none

/-- ASCII digit test. -/
def isDigitCh (c : Char) : Bool := 48 ≤ c.toNat && c.toNat ≤ 57

/-- Splits a leading run of digits from the rest. -/
def takeDigits : Str → Str × Str
  | [] => ([], [])
  | c :: rest =>
    if isDigitCh c then
      let p := takeDigits rest
      (c :: p.1, p.2)
    else ([], c :: rest)

/-- Decimal value of a digit run. -/
def digitsToNat (ds : Str) : Nat :=
  ds.foldl (fun acc c => acc * 10 + (c.toNat - 48)) 0

/-- Scans a JSON number token. `encoding/json` reads numbers into
`float64`; this model covers the integer-valued numbers the repository's
verified behaviours exercise, and makes the parse fail on a fraction or
exponent part (such content is then returned unchanged by the JSON
transform, conservatively). Leading zeros are rejected per the JSON
grammar, as `json.Unmarshal` does. -/
def parseNumTok (s : Str) : Option (Int × Str) :=
  let signed := match s with
    | c :: rest => if c = '-' then (true, rest) else (false, s)
    | [] => (false, s)
  match takeDigits signed.2 with
  | ([], _) => none
  | (ds, rest) =>
    if 1 < ds.length ∧ ds.head? = some '0' then none
    else
      let bad := match rest with
        | c :: _ => c = '.' || c = 'e' || c = 'E'
        | [] => false
      if bad then none
      else some (if signed.1 then -(digitsToNat ds : Int) else (digitsToNat ds : Int), rest)

/-- Inserts a member into an object, overwriting an existing key — the
`map[string]interface{}` semantics of `json.Unmarshal` for duplicate
keys. -/
def objSet : List (Str × Json) → Str → Json → List (Str × Json)
  | [], k, v => [(k, v)]
  | (k0, v0) :: rest, k, v =>
    if k0 = k then (k, v) :: rest else (k0, v0) :: objSet rest k v

/-- Collapses duplicate keys of a parsed member list, later members
winning, as in a Go map. -/
def dedupMembers (ms : List (Str × Json)) : List (Str × Json) :=
  ms.foldl (fun acc kv => objSet acc kv.1 kv.2) []

mutual

/-- Recursive-descent JSON value parser, fuel-driven; models the grammar
`json.Unmarshal` accepts on the inputs in scope. -/
def parseValue : Nat → Str → Option (Json × Str)
  | 0, _ => none
  | fuel + 1, s =>
    match skipWs s with
    | [] => none
    | c :: rest =>
      if c = '\"' then
        match parseStrBody rest with
        | some (cs, r) => some (Json.str cs, r)
        | none => none
      else if c = lbrace then parseObjBody fuel rest
      else if c = '[' then parseArrBody fuel rest
      else if c = 'n' then
        match dropLit ("ull".data) rest with
        | some r => some (Json.null, r)
        | none => none
      else if c = 't' then
        match dropLit ("rue".data) rest with
        | some r => some (Json.bool true, r)
        | none => none
      else if c = 'f' then
        match dropLit ("alse".data) rest with
        | some r => some (Json.bool false, r)
        | none => none
      else
        match parseNumTok (c :: rest) with
        | some (n, r) => some (Json.num n, r)
        | none => none

/-- Parses an object body after the opening brace. -/
def parseObjBody : Nat → Str → Option (Json × Str)
  | 0, _ => none
  | fuel + 1, s =>
    match skipWs s with
    | [] => none
    | c :: rest =>
      if c = rbrace then some (Json.obj [], rest)
      else
        match parseMembers fuel (c :: rest) with
        | some (ms, r) => some (Json.obj (dedupMembers ms), r)
        | none => none

/-- Parses one or more `"key": value` members up to the closing brace. -/
def parseMembers : Nat → Str → Option (List (Str × Json) × Str)
  | 0, _ => none
  | fuel + 1, s =>
    match skipWs s with
    | [] => none
    | c :: rest =>
      if c = '\"' then
        match parseStrBody rest with
        | none => none
        | some (k, r1) =>
          match skipWs r1 with
          | [] => none
          | c2 :: r2 =>
            if c2 = ':' then
              match parseValue fuel r2 with
              | none => none
              | some (v, r3) =>
                match skipWs r3 with
                | [] => none
                | c3 :: r4 =>
                  if c3 = ',' then
                    match parseMembers fuel r4 with
                    | some (ms, r5) => some ((k, v) :: ms, r5)
                    | none => none
                  else if c3 = rbrace then some ([(k, v)], r4)
                  else none
            else none
      else none

/-- Parses an array body after the opening bracket. -/
def parseArrBody : Nat → Str → Option (Json × Str)
  | 0, _ => none
  | fuel + 1, s =>
    match skipWs s with
    | [] => none
    | c :: rest =>
      if c = ']' then some (Json.arr [], rest)
      else
        match parseElems fuel (c :: rest) with
        | some (xs, r) => some (Json.arr xs, r)
        | none => none

/-- Parses one or more array elements up to the closing bracket. -/
def parseElems : Nat → Str → Option (List Json × Str)
  | 0, _ => none
  | fuel + 1, s =>
    match parseValue fuel s with
    | none => none
    | some (v, r) =>
      match skipWs r with
      | [] => none
      | c :: r2 =>
        if c = ',' then
          match parseElems fuel r2 with
          | some (xs, r3) => some (v :: xs, r3)
          | none => none
        else if c = ']' then some ([v], r2)
        else none

end

/-- Models `json.Unmarshal` on a whole input: one value, then only
whitespace may remain. -/
def parseJson (s : Str) : Option Json :=
  match parseValue (4 * s.length + 16) s with
  | some (j, rest) => if (skipWs rest).isEmpty then some j else none
  | none => none

/-- Lowercase hex digit, as `encoding/json` uses in `\u00xx` escapes. -/
def hexDigitCh (n : Nat) : Char :=
  if n < 10 then Char.ofNat (48 + n) else Char.ofNat (87 + n)

/-- Escapes one character for JSON string output, following
`encoding/json` with its default HTML escaping: `<`, `>`, `&` and the
control characters without a short escape are emitted as `\u00xx`
sequences with lowercase hex digits. -/
def escCharOut (c : Char) : Str :=
  if c = '\"' then ['\\', '\"']
  else if c = '\\' then ['\\', '\\']
  else if c = '\n' then ['\\', 'n']
  else if c = '\r' then ['\\', 'r']
  else if c = '\t' then ['\\', 't']
  else if c = '<' || c = '>' || c = '&' || c.toNat < 32 then
    ['\\', 'u', '0', '0', hexDigitCh (c.toNat / 16), hexDigitCh (c.toNat % 16)]
  else [c]

/-- Serialises a string with surrounding quotes. -/
def quoteStr (s : Str) : Str :=
  '\"' :: s.foldr (fun c acc => escCharOut c ++ acc) ['\"']

/-- Fuel-driven decimal rendering of a natural number. -/
def natToStrAux : Nat → Nat → Str
  | 0, _ => []
  | fuel + 1, n =>
    if n < 10 then [Char.ofNat (48 + n)]
    else natToStrAux fuel (n / 10) ++ [Char.ofNat (48 + n % 10)]

/-- Decimal rendering of a natural number. -/
def natToStr (n : Nat) : Str := natToStrAux (n + 1) n

/-- Decimal rendering of an integer; `float64` values holding integers
print this way under `encoding/json`. -/
def intToStr (n : Int) : Str :=
  if n < 0 then '-' :: natToStr n.natAbs else natToStr n.natAbs

/-- Byte-wise (here: code-point-wise) strict ordering of strings, the
order in which `encoding/json` sorts map keys. -/
def strLtB : Str → Str → Bool
  | [], [] => false
  | [], _ :: _ => true
  | _ :: _, [] => false
  | a :: xs, b :: ys =>
    if a.toNat < b.toNat then true
    else if b.toNat < a.toNat then false
    else strLtB xs ys

/-- Insertion step of the key sort. -/
def insertByKey (kv : Str × Json) : List (Str × Json) → List (Str × Json)
  | [] => [kv]
  | x :: xs => if strLtB kv.1 x.1 then kv :: x :: xs else x :: insertByKey kv xs

/-- Sorts object members by key, as `encoding/json` serialises Go maps. -/
def sortMembers (ms : List (Str × Json)) : List (Str × Json) :=
  ms.foldr insertByKey []

/-- Two-space indentation at a nesting depth, per
`json.MarshalIndent(v, "", "  ")`. -/
def indentStr (d : Nat) : Str := List.replicate (2 * d) ' '

mutual

/-- Fuel-driven serialiser modelling `json.MarshalIndent(v, "", "  ")`
at a given depth. -/
def marshalVal : Nat → Nat → Json → Str
  | 0, _, _ => []
  | fuel + 1, d, j =>
    match j with
    | .null => ("null".data)
    | .bool true => ("true".data)
    | .bool false => ("false".data)
    | .num n => intToStr n
    | .str s => quoteStr s
    | .obj [] => [lbrace, rbrace]
    | .obj ms =>
      [lbrace, '\n'] ++ marshalMembers fuel (d + 1) (sortMembers ms) ++
        '\n' :: indentStr d ++ [rbrace]
    | .arr [] => ['[', ']']
    | .arr xs =>
      ['[', '\n'] ++ marshalElems fuel (d + 1) xs ++
        '\n' :: indentStr d ++ [']']

/-- Serialises object members, comma-and-newline separated. -/
def marshalMembers : Nat → Nat → List (Str × Json) → Str
  | 0, _, _ => []
  | _ + 1, _, [] => []
  | fuel + 1, d, [(k, v)] =>
    indentStr d ++ quoteStr k ++ ':' :: ' ' :: marshalVal fuel d v
  | fuel + 1, d, (k, v) :: kv2 :: rest =>
    indentStr d ++ quoteStr k ++ ':' :: ' ' :: marshalVal fuel d v ++
      ',' :: '\n' :: marshalMembers fuel d (kv2 :: rest)

/-- Serialises array elements, comma-and-newline separated. -/
def marshalElems : Nat → Nat → List Json → Str
  | 0, _, _ => []
  | _ + 1, _, [] => []
  | fuel + 1, d, [x] => indentStr d ++ marshalVal fuel d x
  | fuel + 1, d, x :: y :: rest =>
    indentStr d ++ marshalVal fuel d x ++
      ',' :: '\n' :: marshalElems fuel d (y :: rest)

end

mutual

/-- Node count of a JSON tree, used as serialiser fuel. -/
def jsonFuel : Json → Nat
  | .obj ms => 1 + membersFuel ms
  | .arr xs => 1 + elemsFuel xs
  | _ => 1

/-- Node count of an object member list. -/
def membersFuel : List (Str × Json) → Nat
  | [] => 1
  | (_, v) :: rest => 1 + jsonFuel v + membersFuel rest

/-- Node count of an array element list. -/
def elemsFuel : List Json → Nat
  | [] => 1
  | x :: rest => 1 + jsonFuel x + elemsFuel rest

end

/-- Models `json.MarshalIndent(v, "", "  ")`; the fuel bound dominates the
number of recursive calls for any tree. -/
def marshalIndent (j : Json) : Str := marshalVal (2 * jsonFuel j + 16) 0 j

/-- Does a direct member value, when it is a string, match the rule —
the `v.(string)` type switch plus `r.matchString(s)` of the object case
of `recursiveDelete`. -/
def isMatchingStrLeaf (rc : RegexCompile) (r : Rule) : Json → Bool
  | .str s => r.matchString rc s
  | _ => false

/-- The object-level scan of `recursiveDelete`: any direct string-valued
member matching the rule condemns the whole object. -/
def hasMatchingMember (rc : RegexCompile) (r : Rule)
    (ms : List (Str × Json)) : Bool :=
  ms.any (fun kv => isMatchingStrLeaf rc r kv.2)

mutual

/-- Models `Rule.recursiveDelete`, the `visit(node) -> (newNode,
deleteSelf)` walk. A condemned object returns the `nil` replacement
(serialised as `null`, only visible at the root since other callers
discard it). The rebuilt array is a Go `nil` slice when no element
survives, and a `nil` slice serialises as `null`; that case is therefore
represented by `Json.null`. -/
def recursiveDelete (rc : RegexCompile) (r : Rule) : Json → Json × Bool
  | .obj members =>
    if hasMatchingMember rc r members then (Json.null, true)
    else (Json.obj (recDelMembers rc r members), false)
  | .arr elems =>
    let ys := recDelElems rc r elems
    (if ys.isEmpty then Json.null else Json.arr ys, false)
  | j => (j, false)

/-- The member-rebuild loop of the object case: children signalling
`deleteSelf` are dropped. -/
def recDelMembers (rc : RegexCompile) (r : Rule) :
    List (Str × Json) → List (Str × Json)
  | [] => []
  | (k, v) :: rest =>
    let p := recursiveDelete rc r v
    if p.2 then recDelMembers rc r rest
    else (k, p.1) :: recDelMembers rc r rest

/-- The element-rebuild loop of the array case: elements signalling
`deleteSelf` are omitted. -/
def recDelElems (rc : RegexCompile) (r : Rule) : List Json → List Json
  | [] => []
  | x :: rest =>
    let p := recursiveDelete rc r x
    if p.2 then recDelElems rc r rest
    else p.1 :: recDelElems rc r rest

end

/-- The raw shape test of `Rule.deleteJsonField`: the content itself (no
trimming in the source) must start and end with braces, or with
brackets. -/
def looksLikeJson (content : Str) : Bool :=
  (strStartsWith content [lbrace] && strEndsWith content [rbrace]) ||
    (strStartsWith content ['['] && strEndsWith content [']'])

/-- Models `Rule.deleteJsonField`: shape test, parse, walk, re-serialise;
any failure returns the content unchanged. (`json.MarshalIndent` cannot
fail on values produced by `json.Unmarshal`, so its error branch has no
counterpart here.) -/
def Rule.deleteJsonField (rc : RegexCompile) (r : Rule) (content : Str) :
    Str :=
  if looksLikeJson content = false then content
  else
    match parseJson content with
    | none => content
    | some data => marshalIndent (recursiveDelete rc r data).1

/-- Models `Rule.Apply`. The guard skips non-matching content only for
actions other than `delete_json_field`; a panic (from `MustCompile` in
the delete/replace regex branches) is `none`. -/
def Rule.Apply (rc : RegexCompile) (r : Rule) (content : Str) :
    Option Str :=
  if r.action ≠ RuleAction.deleteJsonField ∧ r.Match rc content = false then
    some content
  else
    match r.action with
    | .delete => r.deleteContent rc content
    | .replace => r.replaceContent rc content
    | .deleteJsonField => some (r.deleteJsonField rc content)

/-- One iteration of the rule loop in `Engine.Process`: a disabled rule
is skipped, an enabled rule is applied only when `Match` reports true. -/
def engineStep (rc : RegexCompile) (r : Rule) (content : Str) :
    Option Str :=
  if !r.enabled then some content
  else if r.Match rc content then r.Apply rc content
  else some content

/-- Models the pure content transformation of `Engine.Process` over the
snapshot of the rule list (the lock-protected snapshot and the
never-cancelled context check carry no content semantics). -/
def engineProcess (rc : RegexCompile) : List Rule → Str → Option Str
  | [], content => some content
  | r :: rest, content =>
    match engineStep rc r content with
    | none => none
    | some c2 => engineProcess rc rest c2

/-- The specification's description of `Process`: the plain in-order left
fold of `Rule.Apply`, with no `Match` gate. Stated from the spec's words
for comparison against `engineProcess`. -/
def foldApply (rc : RegexCompile) : List Rule → Str → Option Str
  | [], content => some content
  | r :: rest, content =>
    match r.Apply rc content with
    | none => none
    | some c2 => foldApply rc rest c2

/-- Models `validateRule` on the representable rules: non-empty name and
pattern, a value for the replace action, and a compilable pattern for the
regex mode. (The Go checks for an empty or unknown mode/action string have
no counterpart: the embedded `RuleMode`/`RuleAction` are exactly the valid
enumerations.) -/
def validateRule (rc : RegexCompile) (r : Rule) : Bool :=
  !r.name.isEmpty && !r.pattern.isEmpty &&
    (r.action ≠ RuleAction.replace || !r.value.isEmpty) &&
    (r.mode ≠ RuleMode.regexMode || (rc r.pattern).isSome)

/-- Models `validateRules`: every rule must pass individually. -/
def validateRules (rc : RegexCompile) (rules : List Rule) : Bool :=
  rules.all (validateRule rc)

/-- The per-path load loop of `LoadRulesFromPaths`: each path yields its
file's rules through the oracle `fs` (covering `loadSingleRulesFile`'s
stat/read/YAML-decode pipeline); the first failure aborts with an error
and the results concatenate in path order. -/
def loadAll (fs : Str → Option (List Rule)) : List Str → Option (List Rule)
  | [] => some []
  | p :: rest =>
    match fs p with
    | none => none
    | some rules =>
      match loadAll fs rest with
      | none => none
      | some more => some (rules ++ more)

/-- Models `LoadRulesFromPaths`: load every file, then validate the
concatenation as one unit; `none` is the error return. -/
def loadRulesFromPaths (rc : RegexCompile) (fs : Str → Option (List Rule))
    (paths : List Str) : Option (List Rule) :=
  match loadAll fs paths with
  | none => none
  | some rules => if validateRules rc rules then some rules else none

/-- The rule-holding state of `Engine` (the lock is the concurrency
mechanism around this value and carries no sequential semantics). -/
structure EngineState where
  rules : List Rule

/-- Models `Engine.LoadRules`: on a load or validation error the state is
returned untouched together with `false` (the error return); on success
the freshly loaded rules replace the state via `UpdateRules`. -/
def engineLoadRules (rc : RegexCompile) (fs : Str → Option (List Rule))
    (st : EngineState) (paths : List Str) : EngineState × Bool :=
  match loadRulesFromPaths rc fs paths with
  | none => (st, false)
  | some rules => (⟨rules⟩, true)

/-- Models `Engine.GetRules` (the copy it returns equals the held list). -/
def engineGetRules (st : EngineState) : List Rule := st.rules

/-- An upstream target; `url.Parse` is out of scope, so a target is its
base URL string. -/
abbrev Target := Str

/-- The `LoadBalancer` structure: parsed targets and the round-robin
cursor. -/
structure LoadBalancer where
  targets : List Target
  currentIndex : Nat

/-- Models `NewLoadBalancer` on parseable URLs: an empty list yields the
`nil` balancer of single-target mode, otherwise the cursor starts at 0. -/
def newLoadBalancer (urls : List Target) : Option LoadBalancer :=
  if urls.isEmpty then none else some ⟨urls, 0⟩

/-- Models `LoadBalancer.GetNext` on a non-nil receiver: with no targets
the result is `nil` and the cursor untouched; otherwise the target at the
cursor is returned (`none` would be the index-out-of-range panic,
shown unreachable below) and the cursor advances modulo the length. -/
def LoadBalancer.getNext (lb : LoadBalancer) : Option Target × LoadBalancer :=
  if lb.targets.length = 0 then (none, lb)
  else
    (lb.targets[lb.currentIndex]?,
      ⟨lb.targets, (lb.currentIndex + 1) % lb.targets.length⟩)

/-- `GetNext` including the `lb == nil` guard of the Go method. -/
def getNextOpt : Option LoadBalancer → Option Target × Option LoadBalancer
  | none => (none, none)
  | some lb =>
    let p := lb.getNext
    (p.1, some p.2)

/-- The results and final state of `n` consecutive `GetNext` calls. -/
def getNextSeq (lb : LoadBalancer) : Nat → List (Option Target) × LoadBalancer
  | 0 => ([], lb)
  | n + 1 =>
    let p := lb.getNext
    let q := getNextSeq p.2 n
    (p.1 :: q.1, q.2)

/-- An HTTP header entry: canonical name and its ordered values. -/
abbrev Header := Str × List Str

/-- The skip map of `Forwarder.shouldSkipHeader`, keyed exactly as the Go
literal writes it (canonical case). -/
def skipRequestHeaders : List Str :=
  [("Connection".data), ("Keep-Alive".data), ("Proxy-Authenticate".data),
    ("Proxy-Authorization".data), ("Te".data), ("Trailers".data),
    ("Transfer-Encoding".data), ("Upgrade".data), ("Proxy-Connection".data)]

/-- Models `Forwarder.shouldSkipHeader`: the key is lowercased, then
looked up in the canonical-case map (a lookup miss is Go's zero-value
`false`) or tested for the `proxy-` name prefix. -/
def shouldSkipHeader (key : Str) : Bool :=
  let lowerKey := strToLower key
  skipRequestHeaders.contains lowerKey ||
    strStartsWith lowerKey ("proxy-".data)

/-- Models `Forwarder.copyHeaders` into an empty outbound header map:
entries whose key `shouldSkipHeader` accepts are omitted, all values of
the others are added. -/
def copyHeaders (src : List Header) : List Header :=
  src.filter (fun h => !shouldSkipHeader h.1)

/-- Models `Forwarder.removeProblematicHeaders`: `Content-Length` is
deleted from the outbound headers. -/
def removeProblematicHeaders (hs : List Header) : List Header :=
  hs.filter (fun h => !(h.1 = ("Content-Length".data) : Bool))

/-- The header pipeline of `ForwardRequest`: copy with the skip list,
then strip `Content-Length`. -/
def forwardHeaders (src : List Header) : List Header :=
  removeProblematicHeaders (copyHeaders src)

/-! Concrete rules and contents used to settle the claims on explicit
inputs. -/

/-- An enabled `contains`/`delete_json_field` rule for the pattern
`secret`. -/
def ruleSecretContains : Rule :=
  ⟨("r-secret".data), true, RuleMode.containsMode, ("secret".data),
    RuleAction.deleteJsonField, []⟩

/-- The object content of testable property 4 of the specification. -/
def contentNested : Str :=
  ("\x7b\"a\": \x7b\"x\": \"secret\", \"y\": 1\x7d, \"b\": 2\x7d").data

/-- An enabled `contains`/`delete_json_field` rule for the pattern
`drop-me`. -/
def ruleDropMe : Rule :=
  ⟨("r-drop".data), true, RuleMode.containsMode, ("drop-me".data),
    RuleAction.deleteJsonField, []⟩

/-- The two-element array content of testable property 5 of the
specification. -/
def contentArray : Str :=
  ("[\x7b\"k\":\"drop-me\"\x7d, \x7b\"k\":\"keep\"\x7d]").data

/-- An enabled `contains`/`delete_json_field` rule for the pattern `x`. -/
def ruleXContains : Rule :=
  ⟨("r-x".data), true, RuleMode.containsMode, ("x".data),
    RuleAction.deleteJsonField, []⟩

/-- An enabled `prefix`/`delete_json_field` rule for the pattern
`secret`. -/
def ruleSecretPre : Rule :=
  ⟨("r-pre".data), true, RuleMode.prefixMode, ("secret".data),
    RuleAction.deleteJsonField, []⟩

/-- A small object body whose only string value is `secret`. -/
def contentSecretLeaf : Str := ("\x7b\"a\":\"secret\"\x7d").data

/-- An enabled `contains`/`delete_json_field` rule whose pattern `zzz`
matches nothing below. -/
def ruleZzz : Rule :=
  ⟨("r-zzz".data), true, RuleMode.containsMode, ("zzz".data),
    RuleAction.deleteJsonField, []⟩

/-- A compact object body that re-serialises differently under
`MarshalIndent`. -/
def contentCompact : Str := ("\x7b\"a\":1\x7d").data

/-- An enabled `contains`/`delete` rule, used where a non-JSON action is
required. -/
def ruleDeleteAbc : Rule :=
  ⟨("r-abc".data), true, RuleMode.containsMode, ("abc".data),
    RuleAction.delete, []⟩

/-- A disabled rule. -/
def ruleDisabled : Rule :=
  ⟨("r-off".data), false, RuleMode.containsMode, ("abc".data),
    RuleAction.delete, []⟩

/-- A file oracle under which every path fails to load. -/
def fsNone : Str → Option (List Rule) := fun _ => none

/-- A compile oracle under which every pattern compiles (to a matcher
that never matches and replaces nothing). -/
def rcAll : RegexCompile := fun _ => some ⟨fun _ => false, fun s _ => s⟩

/-- An enabled `regex`/`delete` rule. -/
def ruleRegexDel : Rule :=
  ⟨("r-re".data), true, RuleMode.regexMode, ("a+".data),
    RuleAction.delete, []⟩

/-! Shared lemmas about the embedded definitions. -/

/-- For an enabled rule, `Match` is `matchString`. -/
theorem match_eq_matchString (rc : RegexCompile) (r : Rule) (c : Str)
    (h : r.enabled = true) : r.Match rc c = r.matchString rc c := by
  simp [Rule.Match, h]

/-- A non-`delete_json_field` rule applied to non-matching content
returns it unchanged. -/
theorem apply_of_not_match (rc : RegexCompile) (r : Rule) (c : Str)
    (ha : r.action ≠ RuleAction.deleteJsonField)
    (hm : r.Match rc c = false) : r.Apply rc c = some c := by
  simp [Rule.Apply, ha, hm]

/-- The engine's per-rule step coincides with `Apply` for the delete and
replace actions (for which `Apply` itself re-checks `Match`). -/
theorem engineStep_eq_apply (rc : RegexCompile) (r : Rule) (c : Str)
    (ha : r.action ≠ RuleAction.deleteJsonField) :
    engineStep rc r c = r.Apply rc c := by
  unfold engineStep
  cases he : r.enabled with
  | false =>
    have hm : r.Match rc c = false := by simp [Rule.Match, he]
    simp [he, apply_of_not_match rc r c ha hm]
  | true =>
    cases hm : r.Match rc c with
    | false => simp [he, hm, apply_of_not_match rc r c ha hm]
    | true => simp [he, hm]

/-- The object scan reports a match exactly when some direct member is a
string the rule's `matchString` accepts. -/
theorem hasMatchingMember_iff (rc : RegexCompile) (r : Rule)
    (ms : List (Str × Json)) :
    hasMatchingMember rc r ms = true ↔
      ∃ k s, (k, Json.str s) ∈ ms ∧ r.matchString rc s = true := by
  simp only [hasMatchingMember, List.any_eq_true]
  constructor
  · rintro ⟨⟨k, v⟩, hmem, hleaf⟩
    cases v with
    | str s => exact ⟨k, s, hmem, hleaf⟩
    | null => simp [isMatchingStrLeaf] at hleaf
    | bool b => simp [isMatchingStrLeaf] at hleaf
    | num n => simp [isMatchingStrLeaf] at hleaf
    | obj ms2 => simp [isMatchingStrLeaf] at hleaf
    | arr xs => simp [isMatchingStrLeaf] at hleaf
  · rintro ⟨k, s, hmem, hmatch⟩
    exact ⟨(k, Json.str s), hmem, by simpa [isMatchingStrLeaf] using hmatch⟩

/-- The fused element-rebuild loop is the filter of surviving elements
mapped through the walk. -/
theorem recDelElems_eq_filterMap (rc : RegexCompile) (r : Rule)
    (xs : List Json) :
    recDelElems rc r xs =
      (xs.filter (fun e => !(recursiveDelete rc r e).2)).map
        (fun e => (recursiveDelete rc r e).1) := by
  induction xs with
  | nil => rfl
  | cons x rest ih =>
    cases hx : (recursiveDelete rc r x).2 with
    | false => simp [recDelElems, hx, ih]
    | true => simp [recDelElems, hx, ih]

/-- The fused member-rebuild loop is the filter of surviving members
mapped through the walk. -/
theorem recDelMembers_eq_filterMap (rc : RegexCompile) (r : Rule)
    (ms : List (Str × Json)) :
    recDelMembers rc r ms =
      (ms.filter (fun kv => !(recursiveDelete rc r kv.2).2)).map
        (fun kv => (kv.1, (recursiveDelete rc r kv.2).1)) := by
  induction ms with
  | nil => rfl
  | cons kv rest ih =>
    obtain ⟨k, v⟩ := kv
    cases hv : (recursiveDelete rc r v).2 with
    | false => simp [recDelMembers, hv, ih]
    | true => simp [recDelMembers, hv, ih]

/-! Claim C1. -/

/-- Claim C1, evaluated at the failing input: `shouldSkipHeader` lowercases
the key but its literal map is keyed in canonical case, so the lookup never
hits; an inbound `Connection: close` header is therefore forwarded to the
upstream, contrary to the skip-list intent — only `proxy-`-prefixed names
(which the separate prefix test catches) are skipped. -/
theorem c1_connection_header_forwarded :
    shouldSkipHeader ("Connection".data) = false ∧
    forwardHeaders [(("Connection".data), [("close".data)])] =
      [(("Connection".data), [("close".data)])] ∧
    shouldSkipHeader ("Proxy-Authorization".data) = true ∧
    shouldSkipHeader ("Transfer-Encoding".data) = false := by
  decide

/-! Claim C2. -/

/-- Claim C2 counterexample: for an enabled prefix-mode
`delete_json_field` rule whose pattern does not prefix the body, the
engine's `Process` consults `Match`, finds it false, and never attempts
the JSON-aware transform — the content passes through unchanged even
though the transform, had it run, would have produced `null`. -/
theorem c2_counterexample :
    Rule.Match noRegex ruleSecretPre contentSecretLeaf = false ∧
    engineProcess noRegex [ruleSecretPre] contentSecretLeaf =
      some contentSecretLeaf ∧
    Rule.deleteJsonField noRegex ruleSecretPre contentSecretLeaf =
      ("null".data) ∧
    ("null".data) ≠ contentSecretLeaf := by
  decide

/-- Claim C2 amended: within `Rule.Apply` the `delete_json_field`
transform is indeed attempted without consulting `Match`; but
`Engine.Process` applies a rule only when `Match` reports true, so
through the engine the JSON-aware walk runs exactly on enabled, matching
content. -/
theorem c2_amended (rc : RegexCompile) (r : Rule) (c : Str)
    (h : r.action = RuleAction.deleteJsonField) :
    r.Apply rc c = some (r.deleteJsonField rc c) ∧
    engineProcess rc [r] c =
      some (if r.enabled && r.Match rc c then r.deleteJsonField rc c
        else c) := by
  constructor
  · simp [Rule.Apply, h]
  · cases he : r.enabled with
    | false => simp [engineProcess, engineStep, he]
    | true =>
      cases hm : r.Match rc c with
      | false => simp [engineProcess, engineStep, he, hm]
      | true => simp [engineProcess, engineStep, he, hm, Rule.Apply, h]

/-- Claim C2 amended, witnessed on the counterexample's rule and
content. -/
theorem c2_amended_witness :
    Rule.Apply noRegex ruleSecretPre contentSecretLeaf =
      some (Rule.deleteJsonField noRegex ruleSecretPre contentSecretLeaf) ∧
    engineProcess noRegex [ruleSecretPre] contentSecretLeaf =
      some (if ruleSecretPre.enabled &&
          Rule.Match noRegex ruleSecretPre contentSecretLeaf then
        Rule.deleteJsonField noRegex ruleSecretPre contentSecretLeaf
        else contentSecretLeaf) :=
  c2_amended noRegex ruleSecretPre contentSecretLeaf (by rfl)

/-! Claim C3. -/

/-- Claim C3 counterexample: `deleteJsonField` performs no trimming — the
same JSON body that the walk rewrites to `null` is returned byte-for-byte
unchanged once a single leading space is added, so whitespace-padded
valid JSON does not qualify for the JSON-aware walk. -/
theorem c3_counterexample :
    Rule.deleteJsonField noRegex ruleXContains
        ((" \x7b\"a\":\"x\"\x7d").data) =
      (" \x7b\"a\":\"x\"\x7d").data ∧
    Rule.deleteJsonField noRegex ruleXContains
        (("\x7b\"a\":\"x\"\x7d").data) =
      ("null".data) := by
  decide

/-- Claim C3 amended: the shape test of `delete_json_field` is on the raw
content (no trimming): it must itself start and end with braces or with
brackets; if it does not, or if parsing fails, the content is returned
byte-for-byte unchanged (a no-op, not an error); when both succeed the
parsed tree is walked and re-serialised. -/
theorem c3_amended (rc : RegexCompile) (r : Rule) (c : Str) :
    (looksLikeJson c = false → r.deleteJsonField rc c = c) ∧
    (parseJson c = none → r.deleteJsonField rc c = c) ∧
    (∀ j, looksLikeJson c = true → parseJson c = some j →
      r.deleteJsonField rc c = marshalIndent (recursiveDelete rc r j).1) := by
  refine ⟨fun h => by simp [Rule.deleteJsonField, h], fun h => ?_,
    fun j h1 h2 => by simp [Rule.deleteJsonField, h1, h2]⟩
  cases hl : looksLikeJson c with
  | false => simp [Rule.deleteJsonField, hl]
  | true => simp [Rule.deleteJsonField, hl, h]

/-- Claim C3 amended, witnessed: plain text fails the shape test and is
returned unchanged, and a braced but malformed body parses to nothing and
is returned unchanged. -/
theorem c3_amended_witness :
    Rule.deleteJsonField noRegex ruleXContains ("plain text".data) =
      ("plain text".data) ∧
    Rule.deleteJsonField noRegex ruleXContains (("\x7b\"a\":\x7d").data) =
      ("\x7b\"a\":\x7d").data :=
  ⟨(c3_amended noRegex ruleXContains ("plain text".data)).1 (by decide),
    (c3_amended noRegex ruleXContains (("\x7b\"a\":\x7d").data)).2.1
      (by rfl)⟩

/-! Claim C4. -/

/-- Claim C4 counterexample: on an array in which every element matches,
the rebuilt Go slice is `nil` and serialises as `null` — the result of
`delete_json_field` is not a JSON array. -/
theorem c4_counterexample :
    Rule.deleteJsonField noRegex ruleDropMe
        (("[\x7b\"k\":\"drop-me\"\x7d]").data) =
      ("null".data) ∧
    strStartsWith ("null".data) ['['] = false := by
  decide

/-- Claim C4 amended: an array is never deleted wholesale — the walk
always signals `deleteSelf = false` on it — and exactly the elements
signalling `deleteSelf` are omitted from the rebuild; the result is still
a JSON array whenever at least one element survives (as in the
`[...drop-me..., ...keep...]` example), but when every element is omitted
the rebuilt `nil` slice re-serialises as `null` rather than `[]`. -/
theorem c4_amended (rc : RegexCompile) (r : Rule) (xs : List Json) :
    (recursiveDelete rc r (Json.arr xs)).2 = false ∧
    recDelElems rc r xs =
      (xs.filter (fun e => !(recursiveDelete rc r e).2)).map
        (fun e => (recursiveDelete rc r e).1) ∧
    ((recDelElems rc r xs).isEmpty = false →
      recursiveDelete rc r (Json.arr xs) =
        (Json.arr (recDelElems rc r xs), false)) ∧
    ((recDelElems rc r xs).isEmpty = true →
      recursiveDelete rc r (Json.arr xs) = (Json.null, false)) ∧
    Rule.deleteJsonField noRegex ruleDropMe contentArray =
      ("[\n  \x7b\n    \"k\": \"keep\"\n  \x7d\n]").data := by
  refine ⟨?_, recDelElems_eq_filterMap rc r xs, ?_, ?_, by decide⟩
  · simp [recursiveDelete]
  · intro h
    simp [recursiveDelete, h]
  · intro h
    simp [recursiveDelete, h]

/-- Claim C4 amended, witnessed on a one-element surviving array. -/
theorem c4_amended_witness :
    recursiveDelete noRegex ruleDropMe (Json.arr [Json.num 1]) =
      (Json.arr (recDelElems noRegex ruleDropMe [Json.num 1]), false) :=
  (c4_amended noRegex ruleDropMe [Json.num 1]).2.2.1 (by decide)

/-! Claim C5. -/

/-- Claim C5: in the `delete_json_field` walk of an enabled rule, an
object with some direct string-valued member matching the rule (`Match`
semantics on that leaf) is condemned wholesale (`deleteSelf = true`, its
replacement discarded); otherwise only the members whose visited child
signals `deleteSelf` are dropped and the object survives; on the nested
example content the result is exactly the `{"b": 2}` object. -/
theorem c5_object_deletion (rc : RegexCompile) (r : Rule)
    (ms : List (Str × Json)) (he : r.enabled = true) :
    ((∃ k s, (k, Json.str s) ∈ ms ∧ r.Match rc s = true) →
      recursiveDelete rc r (Json.obj ms) = (Json.null, true)) ∧
    ((¬ ∃ k s, (k, Json.str s) ∈ ms ∧ r.Match rc s = true) →
      recursiveDelete rc r (Json.obj ms) =
        (Json.obj ((ms.filter (fun kv => !(recursiveDelete rc r kv.2).2)).map
          (fun kv => (kv.1, (recursiveDelete rc r kv.2).1))), false)) ∧
    Rule.deleteJsonField noRegex ruleSecretContains contentNested =
      ("\x7b\n  \"b\": 2\n\x7d").data := by
  have hiff : hasMatchingMember rc r ms = true ↔
      ∃ k s, (k, Json.str s) ∈ ms ∧ r.Match rc s = true := by
    rw [hasMatchingMember_iff]
    constructor
    · rintro ⟨k, s, hmem, hm⟩
      exact ⟨k, s, hmem, by rw [match_eq_matchString rc r s he]; exact hm⟩
    · rintro ⟨k, s, hmem, hm⟩
      exact ⟨k, s, hmem, by rw [← match_eq_matchString rc r s he]; exact hm⟩
  refine ⟨fun h => ?_, fun h => ?_, by decide⟩
  · have : hasMatchingMember rc r ms = true := hiff.mpr h
    simp [recursiveDelete, this]
  · have h2 : hasMatchingMember rc r ms = false := by
      cases hh : hasMatchingMember rc r ms with
      | false => rfl
      | true => exact absurd (hiff.mp hh) h
    have h3 : recursiveDelete rc r (Json.obj ms) =
        (Json.obj (recDelMembers rc r ms), false) := by
      simp [recursiveDelete, h2]
    rw [h3, recDelMembers_eq_filterMap]

/-- Claim C5, witnessed: a singleton object whose member is the matching
string `secret` is condemned. -/
theorem c5_object_deletion_witness :
    recursiveDelete noRegex ruleSecretContains
        (Json.obj [(("a".data), Json.str ("secret".data))]) =
      (Json.null, true) :=
  (c5_object_deletion noRegex ruleSecretContains
      [(("a".data), Json.str ("secret".data))] (by rfl)).1
    ⟨("a".data), ("secret".data), List.Mem.head _, by decide⟩

/-! Claim C6. -/

/-- Claim C6 counterexample: a non-matching enabled `delete_json_field`
rule is skipped by `Engine.Process` but re-indents the body under the
plain left fold of `Rule.Apply`, so `Process` is not that fold. -/
theorem c6_counterexample :
    engineProcess noRegex [ruleZzz] contentCompact = some contentCompact ∧
    foldApply noRegex [ruleZzz] contentCompact =
      some (("\x7b\n  \"a\": 1\n\x7d").data) ∧
    contentCompact ≠ ("\x7b\n  \"a\": 1\n\x7d").data := by
  decide

/-- Claim C6 amended: `Process` is the in-order left fold of the
`Match`-gated per-rule step; it is the identity on the empty rule list,
disabled rules contribute nothing wherever they sit, and on rule lists
with no `delete_json_field` action the gate is redundant, so there
`Process` coincides with the plain left fold of `Rule.Apply` (each rule
seeing the previous rule's output). -/
theorem c6_amended (rc : RegexCompile) :
    (∀ c, engineProcess rc [] c = some c) ∧
    (∀ (r : Rule) (pre post : List Rule) (c : Str), r.enabled = false →
      engineProcess rc (pre ++ r :: post) c =
        engineProcess rc (pre ++ post) c) ∧
    (∀ (rules : List Rule) (c : Str),
      (∀ r ∈ rules, r.action ≠ RuleAction.deleteJsonField) →
      engineProcess rc rules c = foldApply rc rules c) := by
  refine ⟨fun c => rfl, ?_, ?_⟩
  · intro r pre post c h
    induction pre generalizing c with
    | nil => simp [engineProcess, engineStep, h]
    | cons p ps ih =>
      cases hs : engineStep rc p c with
      | none => simp [engineProcess, hs]
      | some c2 => simp [engineProcess, hs, ih]
  · intro rules c h
    induction rules generalizing c with
    | nil => rfl
    | cons r rest ih =>
      have hr : r.action ≠ RuleAction.deleteJsonField :=
        h r (List.mem_cons_self r rest)
      have hrest : ∀ x ∈ rest, x.action ≠ RuleAction.deleteJsonField :=
        fun x hx => h x (List.mem_cons_of_mem r hx)
      cases ha : r.Apply rc c with
      | none => simp [engineProcess, foldApply, engineStep_eq_apply rc r c hr, ha]
      | some c2 =>
        simp [engineProcess, foldApply, engineStep_eq_apply rc r c hr, ha,
          ih c2 hrest]

/-- Claim C6 amended, witnessed: a disabled rule contributes nothing, and
on a delete-action rule list `Process` equals the fold of `Apply`. -/
theorem c6_amended_witness :
    engineProcess noRegex ([] ++ ruleDisabled :: []) contentCompact =
      engineProcess noRegex ([] ++ []) contentCompact ∧
    engineProcess noRegex [ruleDeleteAbc] contentCompact =
      foldApply noRegex [ruleDeleteAbc] contentCompact :=
  ⟨(c6_amended noRegex).2.1 ruleDisabled [] [] contentCompact (by rfl),
    (c6_amended noRegex).2.2 [ruleDeleteAbc] contentCompact (by decide)⟩

/-! Claim C7. -/

/-- Closed form of `k` consecutive `GetNext` calls from a valid cursor:
call `j` yields the target at index `(i + j) mod N` and the cursor ends
at `(i + k) mod N`. -/
theorem getNextSeq_formula (ts : List Target) :
    ∀ (k i : Nat), i < ts.length →
      getNextSeq ⟨ts, i⟩ k =
        (((List.range k).map fun j => ts[(i + j) % ts.length]?),
          ⟨ts, (i + k) % ts.length⟩) := by
  intro k
  induction k with
  | zero =>
    intro i hi
    simp [getNextSeq, Nat.mod_eq_of_lt hi]
  | succ k ih =>
    intro i hi
    have hlen : ts.length ≠ 0 := by omega
    have hnext : LoadBalancer.getNext ⟨ts, i⟩ =
        (ts[i]?, ⟨ts, (i + 1) % ts.length⟩) := by
      simp [LoadBalancer.getNext, hlen]
    have hi2 : (i + 1) % ts.length < ts.length :=
      Nat.mod_lt _ (by omega)
    have harith : ∀ j, ((i + 1) % ts.length + j) % ts.length =
        (i + (j + 1)) % ts.length := by
      intro j
      rw [Nat.mod_add_mod]
      congr 1
      omega
    have hfun : (fun j => ts[((i + 1) % ts.length + j) % ts.length]?) =
        ((fun j => ts[(i + j) % ts.length]?) ∘ Nat.succ) := by
      funext j
      simp only [Function.comp, harith j, Nat.succ_eq_add_one]
    simp only [getNextSeq, hnext, ih ((i + 1) % ts.length) hi2,
      List.range_succ_eq_map, List.map_cons, List.map_map, hfun,
      Nat.add_zero, Nat.mod_eq_of_lt hi, harith k]

/-- Index-for-index lookup over the range of a list's length is the list
itself. -/
theorem range_map_lookup (ts : List Target) :
    (List.range ts.length).map (fun j => ts[j]?) = ts.map some := by
  induction ts with
  | nil => rfl
  | cons a l ih =>
    rw [List.length_cons, List.range_succ_eq_map, List.map_cons,
      List.map_map]
    have hfun : ((fun j => (a :: l)[j]?) ∘ Nat.succ) =
        (fun j => l[j]?) := by
      funext j
      simp
    rw [hfun, ih]
    simp

/-- Claim C7: from a freshly constructed balancer over `N ≥ 1` targets,
`N` consecutive `GetNext` calls return each configured target exactly
once in configured order, the cursor returns to 0, and the `(N+1)`-th
call repeats the first target. -/
theorem c7_round_robin (ts : List Target) (h : ts ≠ []) :
    newLoadBalancer ts = some ⟨ts, 0⟩ ∧
    (getNextSeq ⟨ts, 0⟩ ts.length).1 = ts.map some ∧
    (getNextSeq ⟨ts, 0⟩ ts.length).2 = ⟨ts, 0⟩ ∧
    ((getNextSeq ⟨ts, 0⟩ ts.length).2).getNext.1 = ts[0]? := by
  have hpos : 0 < ts.length := List.length_pos.mpr h
  have hlen : ts.length ≠ 0 := by omega
  have hf := getNextSeq_formula ts ts.length 0 hpos
  have hstate : (getNextSeq ⟨ts, 0⟩ ts.length).2 = ⟨ts, 0⟩ := by
    rw [hf]
    simp
  refine ⟨?_, ?_, hstate, ?_⟩
  · have : ts.isEmpty = false := by
      cases ts with
      | nil => exact absurd rfl h
      | cons a l => rfl
    simp [newLoadBalancer, this]
  · rw [hf]
    have hcongr : (List.range ts.length).map
        (fun j => ts[(0 + j) % ts.length]?) =
        (List.range ts.length).map (fun j => ts[j]?) := by
      refine List.map_congr_left ?_
      intro j hj
      rw [List.mem_range] at hj
      rw [Nat.zero_add, Nat.mod_eq_of_lt hj]
    simp only [hcongr, range_map_lookup]
  · rw [hstate]
    simp [LoadBalancer.getNext, hlen]

/-- Claim C7, witnessed on three targets. -/
theorem c7_round_robin_witness :
    (getNextSeq ⟨[("u1".data), ("u2".data), ("u3".data)], 0⟩ 3).1 =
      ([("u1".data), ("u2".data), ("u3".data)] : List Target).map some ∧
    ((getNextSeq ⟨[("u1".data), ("u2".data), ("u3".data)], 0⟩ 3).2).getNext.1 =
      ([("u1".data), ("u2".data), ("u3".data)] : List Target)[0]? := by
  have h := c7_round_robin [("u1".data), ("u2".data), ("u3".data)]
    (by decide)
  exact ⟨h.2.1, h.2.2.2⟩

/-! Claim C8. -/

/-- A failing path anywhere in the list fails the whole load loop. -/
theorem loadAll_none_of_mem (fs : Str → Option (List Rule))
    (paths : List Str) (p : Str) (hmem : p ∈ paths) (hfs : fs p = none) :
    loadAll fs paths = none := by
  induction paths with
  | nil => cases hmem
  | cons q rest ih =>
    cases hmem with
    | head => simp [loadAll, hfs]
    | tail _ hm =>
      cases hq : fs q with
      | none => simp [loadAll, hq]
      | some rs => simp [loadAll, hq, ih hm]

/-- Claim C8: reload is all-or-nothing — a missing/malformed rule file or
a rule failing validation makes `LoadRulesFromPaths` return an error, and
whenever it errors, `Engine.LoadRules` leaves the previously active rule
set untouched (`GetRules` is unchanged) and reports the failure. -/
theorem c8_reload_all_or_nothing (rc : RegexCompile)
    (fs : Str → Option (List Rule)) (st : EngineState)
    (paths : List Str) :
    ((∃ p, p ∈ paths ∧ fs p = none) →
      loadRulesFromPaths rc fs paths = none) ∧
    (∀ rules, loadAll fs paths = some rules →
      validateRules rc rules = false →
      loadRulesFromPaths rc fs paths = none) ∧
    (loadRulesFromPaths rc fs paths = none →
      engineLoadRules rc fs st paths = (st, false) ∧
      engineGetRules (engineLoadRules rc fs st paths).1 =
        engineGetRules st) := by
  refine ⟨?_, ?_, ?_⟩
  · rintro ⟨p, hmem, hfs⟩
    simp [loadRulesFromPaths, loadAll_none_of_mem fs paths p hmem hfs]
  · intro rules h1 h2
    simp [loadRulesFromPaths, h1, h2]
  · intro h
    refine ⟨?_, ?_⟩
    · simp [engineLoadRules, h]
    · simp [engineLoadRules, h]

/-- Claim C8, witnessed: with every file failing to load, the engine
state survives a reload attempt unchanged. -/
theorem c8_reload_witness :
    engineLoadRules noRegex fsNone ⟨[ruleDeleteAbc]⟩
        [("rules.yaml".data)] =
      (⟨[ruleDeleteAbc]⟩, false) :=
  ((c8_reload_all_or_nothing noRegex fsNone ⟨[ruleDeleteAbc]⟩
      [("rules.yaml".data)]).2.2 (by rfl)).1

/-! Claim C9. -/

/-- Claim C9: a rule that passed `validateRule` (in particular, a
regex-mode rule whose pattern compiles) can never reach the panic of
`regexp.MustCompile` inside `Apply` — `Apply` is total on validated
rules for every content. -/
theorem c9_validated_apply_no_panic (rc : RegexCompile) (r : Rule)
    (h : validateRule rc r = true) (c : Str) :
    (r.Apply rc c).isSome = true := by
  have hre : r.mode = RuleMode.regexMode → ∃ re, rc r.pattern = some re := by
    intro hm
    simp only [validateRule, hm, Bool.and_eq_true, Bool.or_eq_true,
      decide_eq_true_eq] at h
    rcases h.2 with h4 | h4
    · exact absurd rfl h4
    · exact Option.isSome_iff_exists.mp h4
  by_cases hskip : r.action ≠ RuleAction.deleteJsonField ∧
      r.Match rc c = false
  · simp [Rule.Apply, hskip]
  · cases hac : r.action with
    | deleteJsonField => simp [Rule.Apply, hskip, hac]
    | delete =>
      cases hm : r.mode with
      | regexMode =>
        obtain ⟨re, hcomp⟩ := hre hm
        simp [Rule.Apply, hskip, hac, Rule.deleteContent, hm, hcomp]
        split <;> simp
      | prefixMode =>
        simp [Rule.Apply, hskip, hac, Rule.deleteContent, hm]
        split <;> simp
      | suffixMode =>
        simp [Rule.Apply, hskip, hac, Rule.deleteContent, hm]
        split <;> simp
      | containsMode =>
        simp [Rule.Apply, hskip, hac, Rule.deleteContent, hm]
        split <;> simp
    | replace =>
      cases hm : r.mode with
      | regexMode =>
        obtain ⟨re, hcomp⟩ := hre hm
        simp [Rule.Apply, hskip, hac, Rule.replaceContent, hm, hcomp]
        split <;> simp
      | prefixMode =>
        simp [Rule.Apply, hskip, hac, Rule.replaceContent, hm]
        split <;> simp
      | suffixMode =>
        simp [Rule.Apply, hskip, hac, Rule.replaceContent, hm]
        split <;> simp
      | containsMode =>
        simp [Rule.Apply, hskip, hac, Rule.replaceContent, hm]
        split <;> simp

/-- Claim C9, witnessed on a regex-mode delete rule under a compile
oracle that accepts its pattern. -/
theorem c9_validated_apply_witness :
    (Rule.Apply rcAll ruleRegexDel ("aaa".data)).isSome = true :=
  c9_validated_apply_no_panic rcAll ruleRegexDel (by rfl) ("aaa".data)

/-! Claim C10. -/

/-- Claim C10: `GetNext` is total at the public interface — `nil`
receiver and empty target list both return `nil` without panicking, and
from any in-bounds cursor over a non-empty list it returns an element of
the list (the index expression cannot panic) and leaves the cursor in
bounds. -/
theorem c10_getNext_total :
    getNextOpt none = (none, none) ∧
    (∀ i, getNextOpt (some ⟨[], i⟩) = (none, some ⟨[], i⟩)) ∧
    (∀ (ts : List Target) (i : Nat), i < ts.length →
      ∃ t, (LoadBalancer.getNext ⟨ts, i⟩).1 = some t ∧ t ∈ ts ∧
        ((LoadBalancer.getNext ⟨ts, i⟩).2).currentIndex < ts.length) := by
  refine ⟨rfl, fun i => by simp [getNextOpt, LoadBalancer.getNext], ?_⟩
  intro ts i h
  have hlen : ts.length ≠ 0 := by omega
  refine ⟨ts[i], ?_, List.getElem_mem h, ?_⟩
  · simp [LoadBalancer.getNext, hlen, List.getElem?_eq_getElem h]
  · simp only [LoadBalancer.getNext, hlen, if_false]
    exact Nat.mod_lt _ (by omega)

/-- Claim C10, witnessed on a one-target balancer. -/
theorem c10_getNext_total_witness :
    ∃ t, (LoadBalancer.getNext ⟨[("u1".data)], 0⟩).1 = some t ∧
      t ∈ [("u1".data)] ∧
      ((LoadBalancer.getNext ⟨[("u1".data)], 0⟩).2).currentIndex <
        ([("u1".data)] : List Target).length :=
  c10_getNext_total.2.2 [("u1".data)] 0 (by decide)

end ContentReplace
